import Mathlib

/-!
Shallow embedding of `ql/MarketModels/evolutiondescription.cpp` (QuantLib):
the `EvolutionDescription` value object, its constructor checks and derived
fields, and the free functions `checkCompatibility`, `isInTerminalMeasure`,
`isInMoneyMarketPlusMeasure`, `isInMoneyMarketMeasure`, `terminalMeasure`,
`moneyMarketPlusMeasure`, `moneyMarketMeasure`.

Modelling conventions:
* the C++ `Time` (floating point) is modelled by `ℚ`;
* the C++ `Size` (unsigned integer index) is modelled by `Nat`;
* a `QL_REQUIRE` failure is an `Except.error` carrying the data the C++
  message reports;
* an out-of-bounds `operator[]` access (undefined behaviour in C++) is
  modelled by `Option`: `none` marks the access, and the theorems below show
  it cannot happen under the documented preconditions;
* the unguarded `while` loops advancing a cursor over `rateTimes` are
  embedded as structural recursion over the remaining list suffix, with the
  running index carried alongside.
-/

/-- `Time`: the C++ floating-point time type, modelled by `ℚ`. -/
abbrev Time := ℚ

/-- The distinct `QL_REQUIRE` failures of `evolutiondescription.cpp`, each
carrying the values interpolated into the C++ message. `indexOutOfBounds`
stands for an out-of-bounds vector access (undefined behaviour in C++),
proved unreachable for checked inputs. -/
inductive QLError where
  | rateTimesTooFew
  | negativeFirstRateTime
  | rateTimesNotIncreasing
  | noEvolutionTimes
  | evolutionTimesNotIncreasing
  | lastEvolutionPastLastRate
  | relevanceRatesMismatch
  | sizeMismatch (numeraireCount : Nat) (stepCount : Nat)
  | numeraireExpired (step : Nat) (evolutionTime : Time) (numeraire : Nat)
      (rateTime : Time)
  | offsetRange (offset : Nat) (maxNumeraire : Nat)
  | indexOutOfBounds
deriving DecidableEq

/-- The strict-increase check the constructor runs with
`for (i = 1; i < v.size(); ++i) QL_REQUIRE(v[i] > v[i-1], ...)`. -/
def strictlyIncreasing : List Time → Bool
  | [] => true
  | [_] => true
  | a :: b :: rest => decide (a < b) && strictlyIncreasing (b :: rest)

/-- Loop body of the first-alive-rate sweep:
`while (rateTimes_[firstAliveRate] <= currentEvolutionTime) ++firstAliveRate;`
walking the suffix of `rateTimes` from the current cursor, carrying the
cursor index; `none` marks the cursor running off the end of `rateTimes`. -/
def fasCursorGo (t : Time) : List Time → Nat → Option Nat
  | [], _ => none
  | r :: rs, j => if r ≤ t then fasCursorGo t rs (j+1) else some j

/-- Advance the first-alive-rate cursor from index `j` over `rateTimes`. -/
def fasCursor (rateTimes : List Time) (t : Time) (j : Nat) : Option Nat :=
  fasCursorGo t (rateTimes.drop j) j

/-- The constructor's first-alive-rate sweep: for each step the cursor is
advanced past every rate time `≤` the running evolution time (initially `0`),
the cursor is recorded, and the running time becomes that step's evolution
time. -/
def fasSweep (rateTimes : List Time) (current : Time) (j : Nat) :
    List Time → Option (List Nat)
  | [] => some []
  | t :: ts =>
    match fasCursor rateTimes current j with
    | none => none
    | some j' =>
      match fasSweep rateTimes t j' ts with
      | none => none
      | some rest => some (j' :: rest)

/-- Loop body of the money-market cursor:
`while (rateTimes[j] < evolutionTimes[i]) j++;` walking the suffix of
`rateTimes` from the current cursor; `none` marks the cursor running off the
end of `rateTimes`. -/
def mmCursorGo (t : Time) : List Time → Nat → Option Nat
  | [], _ => none
  | r :: rs, j => if r < t then mmCursorGo t rs (j+1) else some j

/-- Advance the money-market cursor from index `j` over `rateTimes`. -/
def mmCursor (rateTimes : List Time) (t : Time) (j : Nat) : Option Nat :=
  mmCursorGo t (rateTimes.drop j) j

/-- The step loop of `moneyMarketPlusMeasure`: for each evolution time, the
cursor advances (never resetting), and the step's numeraire is
`min (j + offset) maxNumeraire`. -/
def mmScan (rateTimes : List Time) (offset maxNumeraire j : Nat) :
    List Time → Option (List Nat)
  | [] => some []
  | t :: ts =>
    match mmCursor rateTimes t j with
    | none => none
    | some j' =>
      match mmScan rateTimes offset maxNumeraire j' ts with
      | none => none
      | some rest => some (min (j' + offset) maxNumeraire :: rest)

/-- The step loop of `isInMoneyMarketPlusMeasure`: the same cursor advance,
but each step compares `numeraires[i]` with the recomputed value and
accumulates `res = (numeraires[i] == min(j+offset, maxNumeraire)) && res`;
reading past the end of `numeraires` is `none`. -/
def mmCheckLoop (rateTimes : List Time) (offset maxNumeraire j : Nat)
    (res : Bool) : List Time → List Nat → Option Bool
  | [], _ => some res
  | t :: ts, nums =>
    match mmCursor rateTimes t j with
    | none => none
    | some j' =>
      match nums with
      | [] => none
      | n :: ns =>
        mmCheckLoop rateTimes offset maxNumeraire j'
          ((decide (n = min (j' + offset) maxNumeraire)) && res) ts ns

/-- The `EvolutionDescription` value object: constructor arguments (after
defaulting) together with the three derived fields computed eagerly at
construction. Immutable after construction; the C++ accessors are the
projections. -/
structure EvolutionDescription where
  rateTimes : List Time
  evolutionTimes : List Time
  relevanceRates : List (Nat × Nat)
  rateTaus : List Time
  effStopTime : List (List Time)
  firstAliveRate : List Nat
deriving DecidableEq

/-- `EvolutionDescription::numberOfRates`: `rateTimes_.size() - 1`. -/
def EvolutionDescription.numberOfRates (ev : EvolutionDescription) : Nat :=
  ev.rateTimes.length - 1

/-- `EvolutionDescription::numberOfSteps`: `evolutionTimes_.size()`. -/
def EvolutionDescription.numberOfSteps (ev : EvolutionDescription) : Nat :=
  ev.evolutionTimes.length

/-- The defaulting of the `evolutionTimes` argument: when empty, all rate
times but the last. -/
def defaultedEvolutionTimes (rateTimes evolutionTimes : List Time) :
    List Time :=
  if 0 < evolutionTimes.length then evolutionTimes else rateTimes.dropLast

/-- The `EvolutionDescription` constructor: runs the `QL_REQUIRE` checks in
source order, then derives `rateTaus_`, `effStopTime_` and
`firstAliveRate_`. -/
def mkEvolutionDescription (rateTimes evolutionTimes : List Time)
    (relevanceRates : List (Nat × Nat)) :
    Except QLError EvolutionDescription :=
  let evolutionTimes' := defaultedEvolutionTimes rateTimes evolutionTimes
  let steps := evolutionTimes'.length
  if rateTimes.length ≤ 1 then .error .rateTimesTooFew
  else if rateTimes.headD 0 < 0 then .error .negativeFirstRateTime
  else if ¬ strictlyIncreasing rateTimes then .error .rateTimesNotIncreasing
  else if steps = 0 then .error .noEvolutionTimes
  else if ¬ strictlyIncreasing evolutionTimes' then
    .error .evolutionTimesNotIncreasing
  else if rateTimes.getLastD 0 < evolutionTimes'.getLastD 0 then
    .error .lastEvolutionPastLastRate
  else if ¬ (relevanceRates.isEmpty ∨ relevanceRates.length = steps) then
    .error .relevanceRatesMismatch
  else
    let relevanceRates' :=
      if relevanceRates.isEmpty then
        List.replicate steps (0, rateTimes.length - 1)
      else relevanceRates
    let rateTaus := (List.range (rateTimes.length - 1)).map
      (fun i => rateTimes.getD (i+1) 0 - rateTimes.getD i 0)
    let effStopTime := evolutionTimes'.map
      (fun tj => rateTimes.dropLast.map (fun ti => min tj ti))
    match fasSweep rateTimes 0 0 evolutionTimes' with
    | none => .error .indexOutOfBounds
    | some fas =>
      .ok ⟨rateTimes, evolutionTimes', relevanceRates', rateTaus,
           effStopTime, fas⟩

/-- The expiry loop of `checkCompatibility`:
`for (Size i=0; i<n-1; i++) QL_REQUIRE(rateTimes[numeraires[i]] >= evolutionTimes[i], ...)`,
run as a countdown from `n-1` remaining iterations starting at index `i`. -/
def checkExpiryFrom (rateTimes evolutionTimes : List Time)
    (numeraires : List Nat) : Nat → Nat → Except QLError Unit
  | _, 0 => .ok ()
  | i, count + 1 =>
    let ni := numeraires.getD i 0
    let rti := rateTimes.getD ni 0
    let eti := evolutionTimes.getD i 0
    if rti < eti then .error (.numeraireExpired i eti ni rti)
    else checkExpiryFrom rateTimes evolutionTimes numeraires (i+1) count

/-- `checkCompatibility(evolution, numeraires)`: size check, then the expiry
check on every step but the last. Pure validation: the result carries no
data beyond pass / fail-with-detail. -/
def checkCompatibility (ev : EvolutionDescription) (numeraires : List Nat) :
    Except QLError Unit :=
  let n := ev.evolutionTimes.length
  if numeraires.length ≠ n then .error (.sizeMismatch numeraires.length n)
  else checkExpiryFrom ev.rateTimes ev.evolutionTimes numeraires 0 (n - 1)

/-- `isInTerminalMeasure`: dereferences
`*std::min_element(numeraires.begin(), numeraires.end())` — undefined
behaviour (`none`) on an empty vector — and compares it with
`rateTimes.size() - 1`. -/
def isInTerminalMeasure (ev : EvolutionDescription)
    (numeraires : List Nat) : Option Bool :=
  numeraires.min?.map (fun m => decide (m = ev.rateTimes.length - 1))

/-- `isInMoneyMarketPlusMeasure(evolution, numeraires, offset)`: offset
range check, then the accumulating cursor scan `mmCheckLoop`. -/
def isInMoneyMarketPlusMeasure (ev : EvolutionDescription)
    (numeraires : List Nat) (offset : Nat) : Except QLError (Option Bool) :=
  let maxNumeraire := ev.rateTimes.length - 1
  if maxNumeraire < offset then .error (.offsetRange offset maxNumeraire)
  else .ok (mmCheckLoop ev.rateTimes offset maxNumeraire 0 true
              ev.evolutionTimes numeraires)

/-- `isInMoneyMarketMeasure`: the offset-0 specialization. -/
def isInMoneyMarketMeasure (ev : EvolutionDescription)
    (numeraires : List Nat) : Except QLError (Option Bool) :=
  isInMoneyMarketPlusMeasure ev numeraires 0

/-- `terminalMeasure(evolution)`: a vector of `numberOfSteps` copies of
`rateTimes.size() - 1`. -/
def terminalMeasure (ev : EvolutionDescription) : List Nat :=
  List.replicate ev.evolutionTimes.length (ev.rateTimes.length - 1)

/-- `moneyMarketPlusMeasure(ev, offset)`: offset range check, then the
generating cursor scan `mmScan`. -/
def moneyMarketPlusMeasure (ev : EvolutionDescription) (offset : Nat) :
    Except QLError (Option (List Nat)) :=
  let maxNumeraire := ev.rateTimes.length - 1
  if maxNumeraire < offset then .error (.offsetRange offset maxNumeraire)
  else .ok (mmScan ev.rateTimes offset maxNumeraire 0 ev.evolutionTimes)

/-- `moneyMarketMeasure`: the offset-0 specialization. -/
def moneyMarketMeasure (ev : EvolutionDescription) :
    Except QLError (Option (List Nat)) :=
  moneyMarketPlusMeasure ev 0

/-- The constructor preconditions exactly as the spec lists them, phrased on
the defaulted evolution times. -/
def ValidInputs (rateTimes evolutionTimes : List Time)
    (relevanceRates : List (Nat × Nat)) : Prop :=
  1 < rateTimes.length ∧
  0 ≤ rateTimes.headD 0 ∧
  strictlyIncreasing rateTimes = true ∧
  0 < (defaultedEvolutionTimes rateTimes evolutionTimes).length ∧
  strictlyIncreasing (defaultedEvolutionTimes rateTimes evolutionTimes) =
    true ∧
  (defaultedEvolutionTimes rateTimes evolutionTimes).getLastD 0 ≤
    rateTimes.getLastD 0 ∧
  (relevanceRates = [] ∨
    relevanceRates.length =
      (defaultedEvolutionTimes rateTimes evolutionTimes).length)

/-- Propositional equality test on `Except` results, used so that concrete
runs of the embedded functions can be settled by `Decidable` evaluation. -/
instance {ε α : Type} [DecidableEq ε] [DecidableEq α] :
    DecidableEq (Except ε α) := fun a b =>
  match a, b with
  | .ok x, .ok y =>
    if h : x = y then .isTrue (by rw [h]) else .isFalse (by simp [h])
  | .ok _, .error _ => .isFalse (by simp)
  | .error _, .ok _ => .isFalse (by simp)
  | .error e, .error f =>
    if h : e = f then .isTrue (by rw [h]) else .isFalse (by simp [h])

/-- The default `EvolutionDescription` used only as the unreachable fallback
when a concrete successfully-constructed object is extracted below. -/
def emptyEvolution : EvolutionDescription := ⟨[], [], [], [], [], []⟩

/-- The concrete object constructed from `rateTimes = [0,1,2,3]` with
defaulted evolution times, the spec's worked scenario. -/
def evScenario : EvolutionDescription :=
  (mkEvolutionDescription [0,1,2,3] [] []).toOption.getD emptyEvolution

/-- The concrete object constructed from `rateTimes = [0,1,2]` and
`evolutionTimes = [-1,1]`: the constructor accepts a negative first
evolution time. -/
def evNegFirstStep : EvolutionDescription :=
  (mkEvolutionDescription [0,1,2] [-1,1] []).toOption.getD emptyEvolution

/-- The concrete object from the spec's boundary-case scenario:
`rateTimes = [0,1,2]`, `evolutionTimes = [0,1]`. -/
def evBoundary : EvolutionDescription :=
  (mkEvolutionDescription [0,1,2] [0,1] []).toOption.getD emptyEvolution

/-! ### Helper lemmas about list indexing -/

theorem getD_drop (l : List Time) (j k : Nat) :
    (l.drop j).getD k 0 = l.getD (j + k) 0 := by
  simp [List.getD_eq_getElem?_getD, List.getElem?_drop]

theorem headD_eq_getD (l : List Time) : l.headD 0 = l.getD 0 0 := by
  cases l <;> simp

theorem getLastD_eq_getD (l : List Time) :
    l.getLastD 0 = l.getD (l.length - 1) 0 := by
  simp [List.getLastD_eq_getLast?, List.getLast?_eq_getElem?,
    List.getD_eq_getElem?_getD]

theorem getD_eq_getElem (l : List Time) {i : Nat} (h : i < l.length) :
    l.getD i 0 = l[i] := by
  simp [List.getD_eq_getElem?_getD, List.getElem?_eq_getElem h]

/-! ### The strict-increase check -/

theorem strictlyIncreasing_iff (l : List Time) :
    strictlyIncreasing l = true ↔ List.Chain' (· < ·) l := by
  induction l with
  | nil => simp [strictlyIncreasing]
  | cons a l ih =>
    cases l with
    | nil => simp [strictlyIncreasing]
    | cons b m =>
      rw [List.chain'_cons, ← ih]
      simp [strictlyIncreasing, Bool.and_eq_true, and_comm]

theorem strictlyIncreasing_getD_lt {l : List Time}
    (h : strictlyIncreasing l = true) {i k : Nat} (hik : i < k)
    (hk : k < l.length) : l.getD i 0 < l.getD k 0 := by
  have hp : l.Pairwise (· < ·) :=
    List.chain'_iff_pairwise.1 ((strictlyIncreasing_iff l).1 h)
  have hi : i < l.length := lt_trans hik hk
  rw [getD_eq_getElem l hi, getD_eq_getElem l hk]
  exact List.pairwise_iff_getElem.1 hp i k hi hk hik

theorem strictlyIncreasing_le_last {l : List Time}
    (h : strictlyIncreasing l = true) {x : Time} (hx : x ∈ l) :
    x ≤ l.getD (l.length - 1) 0 := by
  obtain ⟨i, hi, rfl⟩ := List.mem_iff_getElem.1 hx
  rcases Nat.lt_or_ge i (l.length - 1) with hlt | hge
  · have := strictlyIncreasing_getD_lt h hlt (by omega)
    rw [getD_eq_getElem l hi] at this
    exact le_of_lt this
  · have : i = l.length - 1 := by omega
    subst this
    rw [getD_eq_getElem l hi]

theorem strictlyIncreasing_dropLast_lt {l : List Time}
    (h : strictlyIncreasing l = true) {x : Time} (hx : x ∈ l.dropLast) :
    x < l.getD (l.length - 1) 0 := by
  obtain ⟨i, hi, rfl⟩ := List.mem_iff_getElem.1 hx
  have hi' : i < l.length - 1 := by
    simpa [List.length_dropLast] using hi
  have hgl : l.dropLast[i] = l.getD i 0 := by
    rw [List.getElem_dropLast, getD_eq_getElem l (by omega : i < l.length)]
  rw [hgl]
  exact strictlyIncreasing_getD_lt h hi' (by omega)

/-! ### Money-market cursor lemmas -/

theorem mmCursorGo_spec (t : Time) :
    ∀ (l : List Time) (j j' : Nat), mmCursorGo t l j = some j' →
      j ≤ j' ∧ j' - j < l.length ∧ ¬ l.getD (j' - j) 0 < t ∧
        ∀ k < j' - j, l.getD k 0 < t := by
  intro l
  induction l with
  | nil => intro j j' h; simp [mmCursorGo] at h
  | cons r rs ih =>
    intro j j' h
    by_cases hr : r < t
    · rw [mmCursorGo, if_pos hr] at h
      obtain ⟨h1, h2, h3, h4⟩ := ih (j+1) j' h
      refine ⟨by omega, by simp; omega, ?_, ?_⟩
      · have he : j' - j = (j' - (j+1)) + 1 := by omega
        rw [he]; simpa using h3
      · intro k hk
        cases k with
        | zero => simpa using hr
        | succ k' =>
          have : k' < j' - (j + 1) := by omega
          simpa using h4 k' this
    · rw [mmCursorGo, if_neg hr] at h
      obtain rfl : j = j' := by simpa using h
      refine ⟨le_refl _, by simp, by simpa using hr, by omega⟩

theorem mmCursor_spec {rt : List Time} {t : Time} {j j' : Nat}
    (h : mmCursor rt t j = some j') :
    j ≤ j' ∧ j' < rt.length ∧ ¬ rt.getD j' 0 < t ∧
      ∀ k, j ≤ k → k < j' → rt.getD k 0 < t := by
  obtain ⟨h1, h2, h3, h4⟩ := mmCursorGo_spec t (rt.drop j) j j' h
  have hdl : (rt.drop j).length = rt.length - j := List.length_drop j rt
  have hj : j < rt.length := by omega
  rw [getD_drop] at h3
  have hj' : j + (j' - j) = j' := by omega
  rw [hj'] at h3
  refine ⟨h1, by omega, h3, ?_⟩
  intro k hk1 hk2
  have := h4 (k - j) (by omega)
  rw [getD_drop] at this
  have : rt.getD (j + (k - j)) 0 < t := this
  rwa [show j + (k - j) = k by omega] at this

theorem mmCursorGo_isSome (t : Time) :
    ∀ (l : List Time) (j : Nat), (∃ k, k < l.length ∧ ¬ l.getD k 0 < t) →
      ∃ j', mmCursorGo t l j = some j' := by
  intro l
  induction l with
  | nil => intro j ⟨k, hk, _⟩; simp at hk
  | cons r rs ih =>
    intro j ⟨k, hk, hkt⟩
    by_cases hr : r < t
    · have hk0 : k ≠ 0 := by
        intro h0; subst h0; simp at hkt; exact absurd hr (not_lt.2 hkt)
      obtain ⟨j', hj'⟩ := ih (j+1) ⟨k - 1, by simp at hk ⊢; omega, by
        cases k with
        | zero => omega
        | succ k' => simpa using hkt⟩
      exact ⟨j', by rw [mmCursorGo, if_pos hr]; exact hj'⟩
    · exact ⟨j, by rw [mmCursorGo, if_neg hr]⟩

theorem mmCursor_isSome (rt : List Time) (t : Time) {j i : Nat}
    (hji : j ≤ i) (hi : i < rt.length) (hit : ¬ rt.getD i 0 < t) :
    ∃ j', mmCursor rt t j = some j' := by
  apply mmCursorGo_isSome t (rt.drop j) j
  refine ⟨i - j, ?_, ?_⟩
  · rw [List.length_drop]; omega
  · rw [getD_drop, show j + (i - j) = i by omega]; exact hit

/-! ### First-alive-rate cursor lemmas -/

theorem fasCursorGo_spec (t : Time) :
    ∀ (l : List Time) (j j' : Nat), fasCursorGo t l j = some j' →
      j ≤ j' ∧ j' - j < l.length ∧ ¬ l.getD (j' - j) 0 ≤ t ∧
        ∀ k < j' - j, l.getD k 0 ≤ t := by
  intro l
  induction l with
  | nil => intro j j' h; simp [fasCursorGo] at h
  | cons r rs ih =>
    intro j j' h
    by_cases hr : r ≤ t
    · rw [fasCursorGo, if_pos hr] at h
      obtain ⟨h1, h2, h3, h4⟩ := ih (j+1) j' h
      refine ⟨by omega, by simp; omega, ?_, ?_⟩
      · have he : j' - j = (j' - (j+1)) + 1 := by omega
        rw [he]; simpa using h3
      · intro k hk
        cases k with
        | zero => simpa using hr
        | succ k' =>
          have : k' < j' - (j + 1) := by omega
          simpa using h4 k' this
    · rw [fasCursorGo, if_neg hr] at h
      obtain rfl : j = j' := by simpa using h
      refine ⟨le_refl _, by simp, by simpa using hr, by omega⟩

theorem fasCursor_spec {rt : List Time} {t : Time} {j j' : Nat}
    (h : fasCursor rt t j = some j') :
    j ≤ j' ∧ j' < rt.length ∧ ¬ rt.getD j' 0 ≤ t ∧
      ∀ k, j ≤ k → k < j' → rt.getD k 0 ≤ t := by
  obtain ⟨h1, h2, h3, h4⟩ := fasCursorGo_spec t (rt.drop j) j j' h
  have hdl : (rt.drop j).length = rt.length - j := List.length_drop j rt
  have hj : j < rt.length := by omega
  rw [getD_drop] at h3
  rw [show j + (j' - j) = j' by omega] at h3
  refine ⟨h1, by omega, h3, ?_⟩
  intro k hk1 hk2
  have := h4 (k - j) (by omega)
  rw [getD_drop] at this
  rwa [show j + (k - j) = k by omega] at this

theorem fasCursorGo_isSome (t : Time) :
    ∀ (l : List Time) (j : Nat), (∃ k, k < l.length ∧ ¬ l.getD k 0 ≤ t) →
      ∃ j', fasCursorGo t l j = some j' := by
  intro l
  induction l with
  | nil => intro j ⟨k, hk, _⟩; simp at hk
  | cons r rs ih =>
    intro j ⟨k, hk, hkt⟩
    by_cases hr : r ≤ t
    · have hk0 : k ≠ 0 := by
        intro h0; subst h0; simp at hkt; exact absurd hr (not_le.2 hkt)
      obtain ⟨j', hj'⟩ := ih (j+1) ⟨k - 1, by simp at hk ⊢; omega, by
        cases k with
        | zero => omega
        | succ k' => simpa using hkt⟩
      exact ⟨j', by rw [fasCursorGo, if_pos hr]; exact hj'⟩
    · exact ⟨j, by rw [fasCursorGo, if_neg hr]⟩

theorem fasCursor_isSome (rt : List Time) (t : Time) {j i : Nat}
    (hji : j ≤ i) (hi : i < rt.length) (hit : ¬ rt.getD i 0 ≤ t) :
    ∃ j', fasCursor rt t j = some j' := by
  apply fasCursorGo_isSome t (rt.drop j) j
  refine ⟨i - j, ?_, ?_⟩
  · rw [List.length_drop]; omega
  · rw [getD_drop, show j + (i - j) = i by omega]; exact hit

/-! ### Money-market scan lemmas -/

theorem mmScan_eq_some (rt : List Time) (off maxN : Nat) :
    ∀ (ts : List Time) (j : Nat), j < rt.length →
      (∀ t ∈ ts, t ≤ rt.getD (rt.length - 1) 0) →
      ∃ l, mmScan rt off maxN j ts = some l ∧ l.length = ts.length := by
  intro ts
  induction ts with
  | nil => intro j _ _; exact ⟨[], rfl, rfl⟩
  | cons t ts ih =>
    intro j hj hts
    obtain ⟨j', hj'⟩ := mmCursor_isSome rt t
      (Nat.le_sub_one_of_lt hj) (by omega)
      (not_lt.2 (hts t (List.mem_cons_self t ts)))
    obtain ⟨_, hjlen, _, _⟩ := mmCursor_spec hj'
    obtain ⟨l, hl, hlen⟩ := ih j' hjlen
      (fun x hx => hts x (List.mem_cons_of_mem t hx))
    refine ⟨min (j' + off) maxN :: l, ?_, by simp [hlen]⟩
    simp only [mmScan, hj', hl]

theorem mmScan_roundTrip {rt : List Time} (off maxN : Nat) :
    ∀ (ts : List Time) (j : Nat) (l : List Nat),
      mmScan rt off maxN j ts = some l →
      mmCheckLoop rt off maxN j true ts l = some true := by
  intro ts
  induction ts with
  | nil =>
    intro j l h
    obtain rfl : l = [] := by simpa [mmScan, eq_comm] using h
    rfl
  | cons t ts ih =>
    intro j l h
    rcases hcur : mmCursor rt t j with _ | j'
    · simp [mmScan, hcur] at h
    · simp only [mmScan, hcur] at h
      rcases hrest : mmScan rt off maxN j' ts with _ | l'
      · simp [hrest] at h
      · simp only [hrest] at h
        obtain rfl : min (j' + off) maxN :: l' = l := by
          simpa using h
        simp only [mmCheckLoop, hcur]
        simpa using ih j' l' hrest

theorem mmCheckLoop_eq_some (rt : List Time) (off maxN : Nat) :
    ∀ (ts : List Time) (nums : List Nat) (j : Nat) (res : Bool),
      j < rt.length →
      (∀ t ∈ ts, t ≤ rt.getD (rt.length - 1) 0) →
      ts.length ≤ nums.length →
      ∃ b, mmCheckLoop rt off maxN j res ts nums = some b := by
  intro ts
  induction ts with
  | nil => intro nums j res _ _ _; exact ⟨res, rfl⟩
  | cons t ts ih =>
    intro nums j res hj hts hlen
    obtain ⟨j', hj'⟩ := mmCursor_isSome rt t
      (Nat.le_sub_one_of_lt hj) (by omega)
      (not_lt.2 (hts t (List.mem_cons_self t ts)))
    obtain ⟨_, hjlen, _, _⟩ := mmCursor_spec hj'
    cases nums with
    | nil => simp at hlen
    | cons n ns =>
      obtain ⟨b, hb⟩ := ih ns j' ((decide (n = min (j' + off) maxN)) && res)
        hjlen (fun x hx => hts x (List.mem_cons_of_mem t hx))
        (by simpa using hlen)
      refine ⟨b, ?_⟩
      simp only [mmCheckLoop, hj']
      exact hb

theorem mmCheckLoop_none_of_short {rt : List Time} (off maxN : Nat) :
    ∀ (ts : List Time) (nums : List Nat) (j : Nat) (res : Bool),
      nums.length < ts.length →
      mmCheckLoop rt off maxN j res ts nums = none := by
  intro ts
  induction ts with
  | nil => intro nums j res h; simp at h
  | cons t ts ih =>
    intro nums j res h
    rcases hcur : mmCursor rt t j with _ | j'
    · simp [mmCheckLoop, hcur]
    · cases nums with
      | nil => simp [mmCheckLoop, hcur]
      | cons n ns =>
        simp only [mmCheckLoop, hcur]
        exact ih ns j' _ (by simpa using h)

/-! ### First-alive-rate sweep lemmas -/

theorem fasSweep_eq_some {rt : List Time} :
    ∀ (ts : List Time) (current : Time) (j : Nat), j < rt.length →
      (∀ x ∈ (current :: ts).dropLast, x < rt.getD (rt.length - 1) 0) →
      ∃ fas, fasSweep rt current j ts = some fas := by
  intro ts
  induction ts with
  | nil => intro current j _ _; exact ⟨[], rfl⟩
  | cons t ts ih =>
    intro current j hj hlt
    have hcur : current < rt.getD (rt.length - 1) 0 := by
      apply hlt
      simp [List.dropLast_cons_of_ne_nil]
    obtain ⟨j', hj'⟩ := fasCursor_isSome rt current
      (Nat.le_sub_one_of_lt hj) (by omega) (not_le.2 hcur)
    obtain ⟨_, hjlen, _, _⟩ := fasCursor_spec hj'
    obtain ⟨fas, hfas⟩ := ih t j' hjlen (by
      intro x hx
      apply hlt
      rw [List.dropLast_cons_of_ne_nil (by simp)]
      exact List.mem_cons_of_mem current hx)
    refine ⟨j' :: fas, ?_⟩
    simp only [fasSweep, hj', hfas]

theorem fasSweep_shape {rt : List Time} :
    ∀ (ts : List Time) (current : Time) (j : Nat) (fas : List Nat),
      fasSweep rt current j ts = some fas →
      fas.length = ts.length ∧ (∀ x ∈ fas, j ≤ x ∧ x < rt.length) ∧
        List.Chain' (· ≤ ·) fas := by
  intro ts
  induction ts with
  | nil =>
    intro current j fas h
    obtain rfl : fas = [] := by simpa [fasSweep, eq_comm] using h
    simp
  | cons t ts ih =>
    intro current j fas h
    rcases hcur : fasCursor rt current j with _ | j'
    · simp [fasSweep, hcur] at h
    · simp only [fasSweep, hcur] at h
      rcases hrest : fasSweep rt t j' ts with _ | fas'
      · simp [hrest] at h
      · simp only [hrest] at h
        obtain rfl : j' :: fas' = fas := by simpa using h
        obtain ⟨hjj', hj'len, _, _⟩ := fasCursor_spec hcur
        obtain ⟨hlen, hmem, hchain⟩ := ih t j' fas' hrest
        refine ⟨by simp [hlen], ?_, ?_⟩
        · intro x hx
          rcases List.mem_cons.1 hx with rfl | hx'
          · exact ⟨hjj', hj'len⟩
          · obtain ⟨h1, h2⟩ := hmem x hx'
            exact ⟨le_trans hjj' h1, h2⟩
        · rw [List.chain'_cons']
          refine ⟨?_, hchain⟩
          intro y hy
          have : y ∈ fas' := List.mem_of_mem_head? hy
          exact (hmem y this).1

theorem fasSweep_least {rt : List Time} :
    ∀ (ts : List Time) (current : Time) (j : Nat) (fas : List Nat),
      fasSweep rt current j ts = some fas →
      (∀ i < j, rt.getD i 0 ≤ current) →
      List.Chain' (· ≤ ·) (current :: ts) →
      ∀ k < ts.length,
        (current :: ts).getD k 0 < rt.getD (fas.getD k 0) 0 ∧
          ∀ i < fas.getD k 0, rt.getD i 0 ≤ (current :: ts).getD k 0 := by
  intro ts
  induction ts with
  | nil => intro current j fas _ _ _ k hk; simp at hk
  | cons t ts ih =>
    intro current j fas h hpre hchain k hk
    rcases hcur : fasCursor rt current j with _ | j'
    · simp [fasSweep, hcur] at h
    · simp only [fasSweep, hcur] at h
      rcases hrest : fasSweep rt t j' ts with _ | fas'
      · simp [hrest] at h
      · simp only [hrest] at h
        obtain rfl : j' :: fas' = fas := by simpa using h
        obtain ⟨hjj', hj'len, hstop, hscan⟩ := fasCursor_spec hcur
        have hall : ∀ i < j', rt.getD i 0 ≤ current := by
          intro i hi
          rcases Nat.lt_or_ge i j with hij | hij
          · exact hpre i hij
          · exact hscan i hij hi
        have hct : current ≤ t := (List.chain'_cons.1 hchain).1
        cases k with
        | zero =>
          refine ⟨by simpa using not_le.1 hstop, ?_⟩
          intro i hi
          simpa using hall i (by simpa using hi)
        | succ k' =>
          have hk' : k' < ts.length := by simpa using hk
          have := ih t j' fas' hrest
            (fun i hi => le_trans (hall i hi) hct)
            (List.chain'_cons.1 hchain).2 k' hk'
          simpa using this

/-! ### Constructor characterization -/

theorem mk_ok_elim {rt et : List Time} {rr : List (Nat × Nat)}
    {ev : EvolutionDescription}
    (h : mkEvolutionDescription rt et rr = .ok ev) :
    ValidInputs rt et rr ∧
    ev.rateTimes = rt ∧
    ev.evolutionTimes = defaultedEvolutionTimes rt et ∧
    ev.relevanceRates = (if rr.isEmpty then
        List.replicate (defaultedEvolutionTimes rt et).length
          (0, rt.length - 1)
      else rr) ∧
    ev.rateTaus = (List.range (rt.length - 1)).map
      (fun i => rt.getD (i+1) 0 - rt.getD i 0) ∧
    ev.effStopTime = (defaultedEvolutionTimes rt et).map
      (fun tj => rt.dropLast.map (fun ti => min tj ti)) ∧
    fasSweep rt 0 0 (defaultedEvolutionTimes rt et) =
      some ev.firstAliveRate := by
  simp only [mkEvolutionDescription] at h
  by_cases c1 : rt.length ≤ 1
  · rw [if_pos c1] at h; exact Except.noConfusion h
  rw [if_neg c1] at h
  by_cases c2 : rt.headD 0 < 0
  · rw [if_pos c2] at h; exact Except.noConfusion h
  rw [if_neg c2] at h
  by_cases c3 : strictlyIncreasing rt = true
  case neg => rw [if_pos c3] at h; exact Except.noConfusion h
  rw [if_neg (not_not_intro c3)] at h
  by_cases c4 : (defaultedEvolutionTimes rt et).length = 0
  · rw [if_pos c4] at h; exact Except.noConfusion h
  rw [if_neg c4] at h
  by_cases c5 : strictlyIncreasing (defaultedEvolutionTimes rt et) = true
  case neg => rw [if_pos c5] at h; exact Except.noConfusion h
  rw [if_neg (not_not_intro c5)] at h
  by_cases c6 : rt.getLastD 0 < (defaultedEvolutionTimes rt et).getLastD 0
  · rw [if_pos c6] at h; exact Except.noConfusion h
  rw [if_neg c6] at h
  by_cases c7 : rr.isEmpty = true ∨
      rr.length = (defaultedEvolutionTimes rt et).length
  case neg => rw [if_pos c7] at h; exact Except.noConfusion h
  rw [if_neg (not_not_intro c7)] at h
  rcases hsw : fasSweep rt 0 0 (defaultedEvolutionTimes rt et) with _ | fas
  · rw [hsw] at h; exact Except.noConfusion h
  · rw [hsw] at h
    injection h with h'
    subst h'
    refine ⟨⟨by omega, le_of_not_lt c2, c3, by omega, c5, le_of_not_lt c6,
      ?_⟩, rfl, rfl, rfl, rfl, rfl, rfl⟩
    rcases c7 with hc | hc
    · exact Or.inl (List.isEmpty_iff.1 hc)
    · exact Or.inr hc

theorem mk_ok_intro {rt et : List Time} {rr : List (Nat × Nat)}
    (hv : ValidInputs rt et rr) :
    ∃ ev, mkEvolutionDescription rt et rr = .ok ev := by
  obtain ⟨h1, h2, h3, h4, h5, h6, h7⟩ := hv
  have hne : defaultedEvolutionTimes rt et ≠ [] :=
    List.ne_nil_of_length_pos h4
  obtain ⟨fas, hsw⟩ :
      ∃ fas, fasSweep rt 0 0 (defaultedEvolutionTimes rt et) = some fas := by
    apply fasSweep_eq_some _ _ _ (by omega)
    intro x hx
    rw [List.dropLast_cons_of_ne_nil hne] at hx
    rcases List.mem_cons.1 hx with rfl | hx'
    · have hh : rt.getD 0 0 < rt.getD (rt.length - 1) 0 :=
        strictlyIncreasing_getD_lt h3 (by omega) (by omega)
      have : (0 : Time) ≤ rt.getD 0 0 := by rwa [headD_eq_getD] at h2
      linarith
    · calc x < (defaultedEvolutionTimes rt et).getD
            ((defaultedEvolutionTimes rt et).length - 1) 0 :=
            strictlyIncreasing_dropLast_lt h5 hx'
        _ = (defaultedEvolutionTimes rt et).getLastD 0 :=
            (getLastD_eq_getD _).symm
        _ ≤ rt.getLastD 0 := h6
        _ = rt.getD (rt.length - 1) 0 := getLastD_eq_getD rt
  refine ⟨⟨rt, defaultedEvolutionTimes rt et,
    (if rr.isEmpty then
      List.replicate (defaultedEvolutionTimes rt et).length
        (0, rt.length - 1)
    else rr),
    (List.range (rt.length - 1)).map
      (fun i => rt.getD (i+1) 0 - rt.getD i 0),
    (defaultedEvolutionTimes rt et).map
      (fun tj => rt.dropLast.map (fun ti => min tj ti)),
    fas⟩, ?_⟩
  simp only [mkEvolutionDescription]
  rw [if_neg (by omega : ¬ rt.length ≤ 1), if_neg (not_lt.2 h2),
    if_neg (not_not_intro h3), if_neg (by omega), if_neg (not_not_intro h5),
    if_neg (not_lt.2 h6),
    if_neg (not_not_intro (h7.imp (fun h => by simp [h]) id)), hsw]

example : mkEvolutionDescription [0,1,2,3] [] [] = .ok evScenario := rfl

example : evScenario.evolutionTimes = [0,1,2] := by decide

example : evScenario.firstAliveRate = [1,1,2] := by decide

example : moneyMarketMeasure evScenario = .ok (some [0,1,2]) := by decide

example : mkEvolutionDescription [0,1,2] [-1,1] [] = .ok evNegFirstStep := rfl

example : evNegFirstStep.firstAliveRate = [1,1] := by decide

/-! ### Expiry-loop characterization -/

theorem checkExpiryFrom_ok_iff (rt et : List Time) (nums : List Nat) :
    ∀ (count i : Nat),
      (checkExpiryFrom rt et nums i count = .ok () ↔
        ∀ k < count, ¬ rt.getD (nums.getD (i+k) 0) 0 < et.getD (i+k) 0) := by
  intro count
  induction count with
  | zero => intro i; simp [checkExpiryFrom]
  | succ c ih =>
    intro i
    simp only [checkExpiryFrom]
    by_cases hc : rt.getD (nums.getD i 0) 0 < et.getD i 0
    · rw [if_pos hc]
      constructor
      · intro h; exact absurd h (by simp)
      · intro hall
        exact absurd hc (by simpa using hall 0 (by omega))
    · rw [if_neg hc, ih (i+1)]
      constructor
      · intro hall k hk
        cases k with
        | zero => simpa using hc
        | succ k' =>
          have := hall k' (by omega)
          rwa [show i + 1 + k' = i + (k' + 1) by omega] at this
      · intro hall k hk
        have := hall (k+1) (by omega)
        rwa [show i + (k + 1) = i + 1 + k by omega] at this

theorem checkExpiryFrom_ok_or_expired (rt et : List Time) (nums : List Nat) :
    ∀ (count i : Nat),
      checkExpiryFrom rt et nums i count = .ok () ∨
        ∃ s tv nv rv, checkExpiryFrom rt et nums i count =
          .error (.numeraireExpired s tv nv rv) := by
  intro count
  induction count with
  | zero => intro i; exact Or.inl rfl
  | succ c ih =>
    intro i
    simp only [checkExpiryFrom]
    by_cases hc : rt.getD (nums.getD i 0) 0 < et.getD i 0
    · rw [if_pos hc]
      exact Or.inr ⟨i, _, _, _, rfl⟩
    · rw [if_neg hc]
      exact ih (i+1)

/-! ### Claim theorems -/

/-- C5: `EvolutionDescription` construction succeeds (producing an object)
exactly when every constructor precondition holds: `rateTimes` has more
than one element, starts non-negatively and is strictly increasing; the
(defaulted) evolution times are non-empty and strictly increasing; the last
evolution time does not exceed the last rate time; and a non-empty
`relevanceRates` has one entry per step. In particular a one-element
`rateTimes` always fails, with the two-elements-at-least error. -/
theorem mkEvolutionDescription_ok_iff :
    (∀ (rateTimes evolutionTimes : List Time)
        (relevanceRates : List (Nat × Nat)),
      (∃ ev, mkEvolutionDescription rateTimes evolutionTimes relevanceRates =
          .ok ev) ↔
        ValidInputs rateTimes evolutionTimes relevanceRates) ∧
    (∀ (t : Time) (evolutionTimes : List Time)
        (relevanceRates : List (Nat × Nat)),
      mkEvolutionDescription [t] evolutionTimes relevanceRates =
        .error .rateTimesTooFew) := by
  constructor
  · intro rt et rr
    constructor
    · rintro ⟨ev, hev⟩
      exact (mk_ok_elim hev).1
    · exact mk_ok_intro
  · intro t et rr
    rfl

/-- C1 counterexample: for `rateTimes = [0,1,2,3]` with defaulted evolution
times `[0,1,2]`, `moneyMarketMeasure` does not return `[1,2,3]`: the cursor
stops at the first rate time `≥` the step's evolution time, which for
evolution time `0` is rate index `0`, not `1`. -/
theorem moneyMarketMeasure_scenario_cex :
    mkEvolutionDescription [0,1,2,3] [] [] = .ok evScenario ∧
    evScenario.evolutionTimes = [0,1,2] ∧
    moneyMarketMeasure evScenario ≠ .ok (some [1,2,3]) :=
  ⟨rfl, by decide, by decide⟩

/-- C1 (amended): for `rateTimes = [0,1,2,3]` and an empty `evolutionTimes`
argument (defaulting to `[0,1,2]`), `moneyMarketMeasure` returns the
numeraire vector `[0,1,2]`: for every step the cursor advances to the first
rate time `≥` that step's evolution time. -/
theorem moneyMarketMeasure_scenario :
    mkEvolutionDescription [0,1,2,3] [] [] = .ok evScenario ∧
    evScenario.evolutionTimes = [0,1,2] ∧
    moneyMarketMeasure evScenario = .ok (some [0,1,2]) :=
  ⟨rfl, by decide, by decide⟩

/-- C2 counterexample: the constructor accepts `rateTimes = [0,1,2]`,
`evolutionTimes = [-1,1]`, and then `firstAliveRate[1] = 1` although the
smallest rate index whose rate time exceeds `evolutionTimes[0] = -1` is
`0`: with a negative first evolution time the running time regresses below
its initial value `0` and the never-resetting cursor overshoots. -/
theorem firstAliveRate_least_cex :
    mkEvolutionDescription [0,1,2] [-1,1] [] = .ok evNegFirstStep ∧
    evNegFirstStep.firstAliveRate.getD 1 0 = 1 ∧
    ¬ (∀ i < evNegFirstStep.firstAliveRate.getD 1 0,
        evNegFirstStep.rateTimes.getD i 0 ≤
          evNegFirstStep.evolutionTimes.getD 0 0) :=
  ⟨rfl, by decide, by decide⟩

/-- C2 (amended): for every validly constructed `EvolutionDescription`,
`firstAliveRate` has one entry per step and is monotonically non-decreasing;
and provided the first evolution time is non-negative, `firstAliveRate[j]`
is the smallest rate index `i` with
`rateTimes[i] > evolutionTimes[j-1]` (`0` in place of `evolutionTimes[j-1]`
when `j = 0`). -/
theorem firstAliveRate_spec {rt et : List Time} {rr : List (Nat × Nat)}
    {ev : EvolutionDescription}
    (hev : mkEvolutionDescription rt et rr = .ok ev) :
    ev.firstAliveRate.length = ev.numberOfSteps ∧
    List.Chain' (· ≤ ·) ev.firstAliveRate ∧
    (0 ≤ ev.evolutionTimes.getD 0 0 →
      ∀ j < ev.numberOfSteps,
        (if j = 0 then 0 else ev.evolutionTimes.getD (j-1) 0) <
            ev.rateTimes.getD (ev.firstAliveRate.getD j 0) 0 ∧
          ∀ i < ev.firstAliveRate.getD j 0,
            ev.rateTimes.getD i 0 ≤
              (if j = 0 then 0 else ev.evolutionTimes.getD (j-1) 0)) := by
  obtain ⟨⟨h1, h2, h3, h4, h5, h6, h7⟩, hrt, het, _, _, _, hsw⟩ :=
    mk_ok_elim hev
  obtain ⟨hlen, _, hchain⟩ := fasSweep_shape _ _ _ _ hsw
  refine ⟨?_, hchain, ?_⟩
  · rw [hlen, EvolutionDescription.numberOfSteps, het]
  · intro hpos j hj
    have hne : defaultedEvolutionTimes rt et ≠ [] :=
      List.ne_nil_of_length_pos h4
    have hchain0 : List.Chain' (· ≤ ·)
        ((0 : Time) :: defaultedEvolutionTimes rt et) := by
      rw [List.chain'_cons']
      constructor
      · intro y hy
        rcases hh : defaultedEvolutionTimes rt et with _ | ⟨a, l⟩
        · simp [hh] at hy
        · rw [hh] at hy
          simp at hy
          subst hy
          have : (defaultedEvolutionTimes rt et).getD 0 0 = a := by
            rw [hh]; rfl
          rw [het] at hpos
          rwa [this] at hpos
      · exact List.Chain'.imp (fun a b h => le_of_lt h)
          ((strictlyIncreasing_iff _).1 h5)
    have hj' : j < (defaultedEvolutionTimes rt et).length := by
      rwa [EvolutionDescription.numberOfSteps, het] at hj
    have := fasSweep_least _ _ _ _ hsw (by omega) hchain0 j hj'
    have hidx : ((0 : Time) :: defaultedEvolutionTimes rt et).getD j 0 =
        (if j = 0 then 0 else ev.evolutionTimes.getD (j-1) 0) := by
      cases j with
      | zero => simp
      | succ j' => simp [het]
    rw [hidx] at this
    rw [hrt]
    exact this

/-- Facts used by several measure theorems: a constructed object has at
least two rate times, at least one step, and every evolution time is at
most the last rate time. -/
theorem mk_ok_facts {rt et : List Time} {rr : List (Nat × Nat)}
    {ev : EvolutionDescription}
    (hev : mkEvolutionDescription rt et rr = .ok ev) :
    1 < ev.rateTimes.length ∧ 0 < ev.evolutionTimes.length ∧
    ∀ t ∈ ev.evolutionTimes,
      t ≤ ev.rateTimes.getD (ev.rateTimes.length - 1) 0 := by
  obtain ⟨⟨h1, h2, h3, h4, h5, h6, h7⟩, hrt, het, _, _, _, _⟩ :=
    mk_ok_elim hev
  refine ⟨by rw [hrt]; exact h1, by rw [het]; exact h4, ?_⟩
  intro t ht
  rw [het] at ht
  rw [hrt]
  calc t ≤ (defaultedEvolutionTimes rt et).getD
        ((defaultedEvolutionTimes rt et).length - 1) 0 :=
        strictlyIncreasing_le_last h5 ht
    _ = (defaultedEvolutionTimes rt et).getLastD 0 :=
        (getLastD_eq_getD _).symm
    _ ≤ rt.getLastD 0 := h6
    _ = rt.getD (rt.length - 1) 0 := getLastD_eq_getD rt

/-- C3: `checkCompatibility` fails with the size-mismatch error (reporting
both sizes) whenever the numeraire count differs from the step count;
with matching sizes it succeeds exactly when every step except the last has
`rateTimes[numeraires[i]] ≥ evolutionTimes[i]`, and it fails exactly with a
numeraire-expired error when some such step violates that bound. The
hypothesis `hb` records the C++ in-bounds requirement for the
`rateTimes[numeraires[i]]` accesses; the embedding is a pure function whose
only output is this pass/fail result. -/
theorem checkCompatibility_spec (ev : EvolutionDescription)
    (nums : List Nat)
    (hb : ∀ k ∈ nums, k < ev.rateTimes.length)
    (hn : 0 < ev.evolutionTimes.length) :
    (nums.length ≠ ev.evolutionTimes.length →
      checkCompatibility ev nums =
        .error (.sizeMismatch nums.length ev.evolutionTimes.length)) ∧
    (nums.length = ev.evolutionTimes.length →
      ((checkCompatibility ev nums = .ok ()) ↔
        ∀ i, i + 1 < ev.evolutionTimes.length →
          ev.evolutionTimes.getD i 0 ≤
            ev.rateTimes.getD (nums.getD i 0) 0) ∧
      ((∃ i, i + 1 < ev.evolutionTimes.length ∧
          ev.rateTimes.getD (nums.getD i 0) 0 <
            ev.evolutionTimes.getD i 0) ↔
        ∃ s tv nv rv, checkCompatibility ev nums =
          .error (.numeraireExpired s tv nv rv))) := by
  constructor
  · intro hne
    simp only [checkCompatibility]
    rw [if_pos hne]
  · intro heq
    have hcc : checkCompatibility ev nums =
        checkExpiryFrom ev.rateTimes ev.evolutionTimes nums 0
          (ev.evolutionTimes.length - 1) := by
      simp only [checkCompatibility]
      rw [if_neg (not_not_intro heq)]
    constructor
    · rw [hcc, checkExpiryFrom_ok_iff]
      constructor
      · intro hall i hi
        have := hall i (by omega)
        rw [Nat.zero_add] at this
        exact not_lt.1 this
      · intro hall k hk
        rw [Nat.zero_add]
        exact not_lt.2 (hall k (by omega))
    · constructor
      · rintro ⟨i, hi, hbad⟩
        rcases checkExpiryFrom_ok_or_expired ev.rateTimes
            ev.evolutionTimes nums (ev.evolutionTimes.length - 1) 0 with
          hok | hex
        · exfalso
          rw [checkExpiryFrom_ok_iff] at hok
          have := hok i (by omega)
          rw [Nat.zero_add] at this
          exact this hbad
        · rw [hcc]
          exact hex
      · rintro ⟨s, tv, nv, rv, herr⟩
        by_contra hno
        push_neg at hno
        have hok : checkCompatibility ev nums = .ok () := by
          rw [hcc, checkExpiryFrom_ok_iff]
          intro k hk
          rw [Nat.zero_add]
          exact not_lt.2 (hno k (by omega))
        rw [hok] at herr
        exact Except.noConfusion herr

/-- C4: for every validly constructed `EvolutionDescription` and every
offset `k ≤ rateTimes.size() - 1`, the generated money-market-plus
numeraire vector is accepted by `isInMoneyMarketPlusMeasure` at the same
offset. -/
theorem moneyMarketPlus_roundTrip {rt et : List Time}
    {rr : List (Nat × Nat)} {ev : EvolutionDescription}
    (hev : mkEvolutionDescription rt et rr = .ok ev) (k : Nat)
    (hk : k ≤ ev.numberOfRates) :
    ∃ l, moneyMarketPlusMeasure ev k = .ok (some l) ∧
      isInMoneyMarketPlusMeasure ev l k = .ok (some true) := by
  obtain ⟨hlen, hsteps, hts⟩ := mk_ok_facts hev
  obtain ⟨l, hl, hllen⟩ := mmScan_eq_some ev.rateTimes k
    (ev.rateTimes.length - 1) ev.evolutionTimes 0 (by omega) hts
  refine ⟨l, ?_, ?_⟩
  · simp only [moneyMarketPlusMeasure]
    rw [if_neg (not_lt.2 (show k ≤ ev.rateTimes.length - 1 from hk)), hl]
  · simp only [isInMoneyMarketPlusMeasure]
    rw [if_neg (not_lt.2 (show k ≤ ev.rateTimes.length - 1 from hk)),
      mmScan_roundTrip k (ev.rateTimes.length - 1) ev.evolutionTimes 0 l hl]

/-- C6: on every validly constructed `EvolutionDescription`, the accrual
periods are the consecutive rate-time differences and are strictly
positive, and the effective-stop-time matrix entry for step `j` and rate
`i` is `min(evolutionTimes[j], rateTimes[i])`. -/
theorem rateTaus_effStopTime_spec {rt et : List Time}
    {rr : List (Nat × Nat)} {ev : EvolutionDescription}
    (hev : mkEvolutionDescription rt et rr = .ok ev) :
    ev.rateTaus.length = ev.numberOfRates ∧
    (∀ i < ev.numberOfRates,
      ev.rateTaus.getD i 0 =
        ev.rateTimes.getD (i+1) 0 - ev.rateTimes.getD i 0 ∧
      0 < ev.rateTaus.getD i 0) ∧
    (∀ j < ev.numberOfSteps, ∀ i < ev.numberOfRates,
      (ev.effStopTime.getD j []).getD i 0 =
        min (ev.evolutionTimes.getD j 0) (ev.rateTimes.getD i 0)) := by
  obtain ⟨⟨h1, h2, h3, h4, h5, h6, h7⟩, hrt, het, _, htau, heff, _⟩ :=
    mk_ok_elim hev
  have hnr : ev.numberOfRates = rt.length - 1 := by
    rw [EvolutionDescription.numberOfRates, hrt]
  refine ⟨?_, ?_, ?_⟩
  · rw [htau, hnr]
    simp
  · intro i hi
    rw [hnr] at hi
    have hgd : ev.rateTaus.getD i 0 = rt.getD (i+1) 0 - rt.getD i 0 := by
      rw [htau, List.getD_eq_getElem?_getD, List.getElem?_map,
        List.getElem?_range hi]
      rfl
    refine ⟨by rw [hgd, hrt], ?_⟩
    rw [hgd]
    have := strictlyIncreasing_getD_lt h3 (Nat.lt_succ_self i)
      (by omega : i + 1 < rt.length)
    linarith
  · intro j hj i hi
    rw [hnr] at hi
    have hj' : j < (defaultedEvolutionTimes rt et).length := by
      rwa [EvolutionDescription.numberOfSteps, het] at hj
    have hdl : i < rt.dropLast.length := by
      simpa [List.length_dropLast] using hi
    simp only [heff, het, hrt, List.getD_eq_getElem?_getD,
      List.getElem?_map, List.getElem?_eq_getElem hj',
      List.getElem?_eq_getElem hdl,
      List.getElem?_eq_getElem (show i < rt.length by omega),
      Option.map_some', Option.getD_some, List.getElem_dropLast]

/-- C7: `terminalMeasure` yields one numeraire per step, each equal to
`rateTimes.size() - 1`; `isInTerminalMeasure` answers `true` exactly when
the minimum of the supplied numeraires is `rateTimes.size() - 1`; hence the
terminal measure is accepted. -/
theorem terminalMeasure_spec {rt et : List Time} {rr : List (Nat × Nat)}
    {ev : EvolutionDescription}
    (hev : mkEvolutionDescription rt et rr = .ok ev) :
    (terminalMeasure ev).length = ev.numberOfSteps ∧
    (∀ x ∈ terminalMeasure ev, x = ev.rateTimes.length - 1) ∧
    (∀ nums : List Nat,
      isInTerminalMeasure ev nums = some true ↔
        nums.min? = some (ev.rateTimes.length - 1)) ∧
    isInTerminalMeasure ev (terminalMeasure ev) = some true := by
  obtain ⟨_, hsteps, _⟩ := mk_ok_facts hev
  refine ⟨by simp [terminalMeasure, EvolutionDescription.numberOfSteps],
    ?_, ?_, ?_⟩
  · intro x hx
    exact List.eq_of_mem_replicate hx
  · intro nums
    simp only [isInTerminalMeasure]
    rcases hmin : nums.min? with _ | m
    · simp
    · simp
  · simp only [isInTerminalMeasure, terminalMeasure]
    have hmin : (List.replicate ev.evolutionTimes.length
        (ev.rateTimes.length - 1)).min? =
        some (ev.rateTimes.length - 1) := by
      rw [List.min?_eq_some_iff']
      refine ⟨List.mem_replicate.2 ⟨by omega, rfl⟩, ?_⟩
      intro b hb
      rw [List.eq_of_mem_replicate hb]
    rw [hmin]
    simp

/-- C8: both `moneyMarketPlusMeasure` and `isInMoneyMarketPlusMeasure` fail
with the offset-range error (reporting the offset and the maximum allowed
numeraire index) exactly when the offset exceeds `rateTimes.size() - 1`;
for any allowed offset both return an ordinary result. -/
theorem measure_offset_range_spec {rt et : List Time}
    {rr : List (Nat × Nat)} {ev : EvolutionDescription}
    (hev : mkEvolutionDescription rt et rr = .ok ev) (k : Nat)
    (nums : List Nat) :
    (ev.numberOfRates < k →
      moneyMarketPlusMeasure ev k =
        .error (.offsetRange k ev.numberOfRates) ∧
      isInMoneyMarketPlusMeasure ev nums k =
        .error (.offsetRange k ev.numberOfRates)) ∧
    (k ≤ ev.numberOfRates →
      (∃ x, moneyMarketPlusMeasure ev k = .ok x) ∧
      (∃ y, isInMoneyMarketPlusMeasure ev nums k = .ok y)) := by
  constructor
  · intro hk
    constructor
    · simp only [moneyMarketPlusMeasure]
      rw [if_pos (show ev.rateTimes.length - 1 < k from hk)]
      rfl
    · simp only [isInMoneyMarketPlusMeasure]
      rw [if_pos (show ev.rateTimes.length - 1 < k from hk)]
      rfl
  · intro hk
    constructor
    · refine ⟨mmScan ev.rateTimes k (ev.rateTimes.length - 1) 0
        ev.evolutionTimes, ?_⟩
      simp only [moneyMarketPlusMeasure]
      rw [if_neg (not_lt.2 (show k ≤ ev.rateTimes.length - 1 from hk))]
    · refine ⟨mmCheckLoop ev.rateTimes k (ev.rateTimes.length - 1) 0 true
        ev.evolutionTimes nums, ?_⟩
      simp only [isInMoneyMarketPlusMeasure]
      rw [if_neg (not_lt.2 (show k ≤ ev.rateTimes.length - 1 from hk))]

/-- C9: on a validly constructed `EvolutionDescription` the unguarded
cursor loops never run off the end of `rateTimes`: the constructor's
first-alive-rate sweep completes (every recorded index is in bounds), and
the step loops of `moneyMarketPlusMeasure` and
`isInMoneyMarketPlusMeasure` complete with an ordinary result (`none`,
which marks an out-of-bounds `rateTimes` access in this embedding, never
arises). In the embedding all loops are total by construction, matching
the termination half of the claim. -/
theorem loops_inBounds_spec {rt et : List Time} {rr : List (Nat × Nat)}
    {ev : EvolutionDescription}
    (hev : mkEvolutionDescription rt et rr = .ok ev) :
    (fasSweep ev.rateTimes 0 0 ev.evolutionTimes =
        some ev.firstAliveRate ∧
      ∀ x ∈ ev.firstAliveRate, x < ev.rateTimes.length) ∧
    (∀ k, k ≤ ev.numberOfRates →
      ∃ l, moneyMarketPlusMeasure ev k = .ok (some l) ∧
        l.length = ev.numberOfSteps) ∧
    (∀ k, k ≤ ev.numberOfRates → ∀ nums : List Nat,
      ev.numberOfSteps ≤ nums.length →
      ∃ b, isInMoneyMarketPlusMeasure ev nums k = .ok (some b)) := by
  obtain ⟨hlen, hsteps, hts⟩ := mk_ok_facts hev
  obtain ⟨_, hrt, het, _, _, _, hsw⟩ := mk_ok_elim hev
  refine ⟨⟨?_, ?_⟩, ?_, ?_⟩
  · rw [hrt, het]
    exact hsw
  · intro x hx
    have := (fasSweep_shape _ _ _ _ hsw).2.1 x hx
    rw [hrt]
    exact this.2
  · intro k hk
    obtain ⟨l, hl, hllen⟩ := mmScan_eq_some ev.rateTimes k
      (ev.rateTimes.length - 1) ev.evolutionTimes 0 (by omega) hts
    refine ⟨l, ?_, hllen⟩
    simp only [moneyMarketPlusMeasure]
    rw [if_neg (not_lt.2 (show k ≤ ev.rateTimes.length - 1 from hk)), hl]
  · intro k hk nums hnums
    obtain ⟨b, hb⟩ := mmCheckLoop_eq_some ev.rateTimes k
      (ev.rateTimes.length - 1) ev.evolutionTimes nums 0 true (by omega)
      hts hnums
    refine ⟨b, ?_⟩
    simp only [isInMoneyMarketPlusMeasure]
    rw [if_neg (not_lt.2 (show k ≤ ev.rateTimes.length - 1 from hk)), hb]

/-- C10: the measure classifiers run no length validation. On a validly
constructed object and an allowed offset, `isInTerminalMeasure` is
undefined (dereferences the minimum of an empty vector) exactly on the
empty numeraire list, `isInMoneyMarketPlusMeasure` is undefined (reads
past the end of `numeraires`) exactly when fewer numeraires than steps are
supplied, and no input makes it produce a size-mismatch error. -/
theorem classifiers_no_size_check {rt et : List Time}
    {rr : List (Nat × Nat)} {ev : EvolutionDescription}
    (hev : mkEvolutionDescription rt et rr = .ok ev) (k : Nat)
    (hk : k ≤ ev.numberOfRates) (nums : List Nat) :
    (isInTerminalMeasure ev nums = none ↔ nums = []) ∧
    (isInMoneyMarketPlusMeasure ev nums k = .ok none ↔
      nums.length < ev.numberOfSteps) ∧
    (∀ a b, isInMoneyMarketPlusMeasure ev nums k ≠
      .error (.sizeMismatch a b)) := by
  obtain ⟨hlen, hsteps, hts⟩ := mk_ok_facts hev
  have hun : isInMoneyMarketPlusMeasure ev nums k =
      .ok (mmCheckLoop ev.rateTimes k (ev.rateTimes.length - 1) 0 true
        ev.evolutionTimes nums) := by
    simp only [isInMoneyMarketPlusMeasure]
    rw [if_neg (not_lt.2 (show k ≤ ev.rateTimes.length - 1 from hk))]
  refine ⟨?_, ?_, ?_⟩
  · simp only [isInTerminalMeasure]
    constructor
    · intro h
      rcases hmin : nums.min? with _ | m
      · exact List.min?_eq_none_iff.1 hmin
      · rw [hmin] at h
        simp at h
    · rintro rfl
      rfl
  · rw [hun]
    constructor
    · intro h
      by_contra hge
      push_neg at hge
      obtain ⟨b, hb⟩ := mmCheckLoop_eq_some ev.rateTimes k
        (ev.rateTimes.length - 1) ev.evolutionTimes nums 0 true (by omega)
        hts hge
      rw [hb] at h
      simp at h
    · intro hlt
      rw [mmCheckLoop_none_of_short k (ev.rateTimes.length - 1)
        ev.evolutionTimes nums 0 true hlt]
  · intro a b
    rw [hun]
    simp

/-! ### Witnesses: the claim theorems applied at concrete inputs -/

/-- Witness for C2 (amended) at the scenario object. -/
theorem firstAliveRate_spec_witness :
    mkEvolutionDescription [0,1,2,3] [] [] = .ok evScenario ∧
    (evScenario.firstAliveRate.length = evScenario.numberOfSteps ∧
    List.Chain' (· ≤ ·) evScenario.firstAliveRate ∧
    (0 ≤ evScenario.evolutionTimes.getD 0 0 →
      ∀ j < evScenario.numberOfSteps,
        (if j = 0 then 0 else evScenario.evolutionTimes.getD (j-1) 0) <
            evScenario.rateTimes.getD
              (evScenario.firstAliveRate.getD j 0) 0 ∧
          ∀ i < evScenario.firstAliveRate.getD j 0,
            evScenario.rateTimes.getD i 0 ≤
              (if j = 0 then 0 else
                evScenario.evolutionTimes.getD (j-1) 0))) :=
  ⟨rfl, firstAliveRate_spec
    (show mkEvolutionDescription [0,1,2,3] [] [] = .ok evScenario from rfl)⟩

/-- Witness for C3 at the spec's boundary scenario:
`rateTimes = [0,1,2]`, `evolutionTimes = [0,1]`, `numeraires = [0,2]`. -/
theorem checkCompatibility_spec_witness :
    (∀ k ∈ [0,2], k < evBoundary.rateTimes.length) ∧
    0 < evBoundary.evolutionTimes.length ∧
    ((([0,2] : List Nat).length ≠ evBoundary.evolutionTimes.length →
      checkCompatibility evBoundary [0,2] =
        .error (.sizeMismatch ([0,2] : List Nat).length
          evBoundary.evolutionTimes.length)) ∧
    (([0,2] : List Nat).length = evBoundary.evolutionTimes.length →
      ((checkCompatibility evBoundary [0,2] = .ok ()) ↔
        ∀ i, i + 1 < evBoundary.evolutionTimes.length →
          evBoundary.evolutionTimes.getD i 0 ≤
            evBoundary.rateTimes.getD (([0,2] : List Nat).getD i 0) 0) ∧
      ((∃ i, i + 1 < evBoundary.evolutionTimes.length ∧
          evBoundary.rateTimes.getD (([0,2] : List Nat).getD i 0) 0 <
            evBoundary.evolutionTimes.getD i 0) ↔
        ∃ s tv nv rv, checkCompatibility evBoundary [0,2] =
          .error (.numeraireExpired s tv nv rv)))) :=
  ⟨by decide, by decide,
    checkCompatibility_spec evBoundary [0,2] (by decide) (by decide)⟩

/-- Witness for C4 at the scenario object with offset `1`. -/
theorem moneyMarketPlus_roundTrip_witness :
    mkEvolutionDescription [0,1,2,3] [] [] = .ok evScenario ∧
    1 ≤ evScenario.numberOfRates ∧
    ∃ l, moneyMarketPlusMeasure evScenario 1 = .ok (some l) ∧
      isInMoneyMarketPlusMeasure evScenario l 1 = .ok (some true) :=
  ⟨rfl, by decide, moneyMarketPlus_roundTrip
    (show mkEvolutionDescription [0,1,2,3] [] [] = .ok evScenario from rfl)
    1 (by decide)⟩

/-- Witness for C6 at the scenario object. -/
theorem rateTaus_effStopTime_spec_witness :
    mkEvolutionDescription [0,1,2,3] [] [] = .ok evScenario ∧
    (evScenario.rateTaus.length = evScenario.numberOfRates ∧
    (∀ i < evScenario.numberOfRates,
      evScenario.rateTaus.getD i 0 =
        evScenario.rateTimes.getD (i+1) 0 -
          evScenario.rateTimes.getD i 0 ∧
      0 < evScenario.rateTaus.getD i 0) ∧
    (∀ j < evScenario.numberOfSteps, ∀ i < evScenario.numberOfRates,
      (evScenario.effStopTime.getD j []).getD i 0 =
        min (evScenario.evolutionTimes.getD j 0)
          (evScenario.rateTimes.getD i 0))) :=
  ⟨rfl, rateTaus_effStopTime_spec
    (show mkEvolutionDescription [0,1,2,3] [] [] = .ok evScenario from rfl)⟩

/-- Witness for C7 at the scenario object. -/
theorem terminalMeasure_spec_witness :
    mkEvolutionDescription [0,1,2,3] [] [] = .ok evScenario ∧
    ((terminalMeasure evScenario).length = evScenario.numberOfSteps ∧
    (∀ x ∈ terminalMeasure evScenario,
      x = evScenario.rateTimes.length - 1) ∧
    (∀ nums : List Nat,
      isInTerminalMeasure evScenario nums = some true ↔
        nums.min? = some (evScenario.rateTimes.length - 1)) ∧
    isInTerminalMeasure evScenario (terminalMeasure evScenario) =
      some true) :=
  ⟨rfl, terminalMeasure_spec
    (show mkEvolutionDescription [0,1,2,3] [] [] = .ok evScenario from rfl)⟩

/-- Witness for C8 at the scenario object, offset `4`, numeraires
`[3,3,3]`. -/
theorem measure_offset_range_spec_witness :
    mkEvolutionDescription [0,1,2,3] [] [] = .ok evScenario ∧
    ((evScenario.numberOfRates < 4 →
      moneyMarketPlusMeasure evScenario 4 =
        .error (.offsetRange 4 evScenario.numberOfRates) ∧
      isInMoneyMarketPlusMeasure evScenario [3,3,3] 4 =
        .error (.offsetRange 4 evScenario.numberOfRates)) ∧
    (4 ≤ evScenario.numberOfRates →
      (∃ x, moneyMarketPlusMeasure evScenario 4 = .ok x) ∧
      (∃ y, isInMoneyMarketPlusMeasure evScenario [3,3,3] 4 = .ok y))) :=
  ⟨rfl, measure_offset_range_spec
    (show mkEvolutionDescription [0,1,2,3] [] [] = .ok evScenario from rfl)
    4 [3,3,3]⟩

/-- Witness for C9 at the scenario object. -/
theorem loops_inBounds_spec_witness :
    mkEvolutionDescription [0,1,2,3] [] [] = .ok evScenario ∧
    ((fasSweep evScenario.rateTimes 0 0 evScenario.evolutionTimes =
        some evScenario.firstAliveRate ∧
      ∀ x ∈ evScenario.firstAliveRate, x < evScenario.rateTimes.length) ∧
    (∀ k, k ≤ evScenario.numberOfRates →
      ∃ l, moneyMarketPlusMeasure evScenario k = .ok (some l) ∧
        l.length = evScenario.numberOfSteps) ∧
    (∀ k, k ≤ evScenario.numberOfRates → ∀ nums : List Nat,
      evScenario.numberOfSteps ≤ nums.length →
      ∃ b, isInMoneyMarketPlusMeasure evScenario nums k =
        .ok (some b))) :=
  ⟨rfl, loops_inBounds_spec
    (show mkEvolutionDescription [0,1,2,3] [] [] = .ok evScenario from rfl)⟩

/-- Witness for C10 at the scenario object, offset `0`, and the too-short
numeraire list `[3]`. -/
theorem classifiers_no_size_check_witness :
    mkEvolutionDescription [0,1,2,3] [] [] = .ok evScenario ∧
    0 ≤ evScenario.numberOfRates ∧
    ((isInTerminalMeasure evScenario [3] = none ↔ ([3] : List Nat) = []) ∧
    (isInMoneyMarketPlusMeasure evScenario [3] 0 = .ok none ↔
      ([3] : List Nat).length < evScenario.numberOfSteps) ∧
    (∀ a b, isInMoneyMarketPlusMeasure evScenario [3] 0 ≠
      .error (.sizeMismatch a b))) :=
  ⟨rfl, by decide, classifiers_no_size_check
    (show mkEvolutionDescription [0,1,2,3] [] [] = .ok evScenario from rfl)
    0 (by decide) [3]⟩
